import Mathlib

/-!
Verification of the chunking pipeline and hybrid retrieval router of the
dutch-tenancy-rag-app repository.  The Python sources `rag_app/rag.py` and
`rag_app/ingestion.py` are embedded shallowly: strings are `List Char`,
Python regular-expression searches are compiled by hand into executable
recursive matchers that mirror the deterministic backtracking behaviour of
the concrete patterns used by the code.

Simplifications, stated once here: Python's Unicode tables are approximated
by treating every ASCII alphanumeric character and `_` as a word character
and every non-ASCII character as a word character (the only non-ASCII text
in the code, Cyrillic keyword letters, are word characters in Python too);
`str.lower` is modelled by ASCII lowercasing (all non-ASCII literals in the
code are already lower case); Python's `\s` is modelled by
`Char.isWhitespace` (space, tab, CR, LF) and `\d` by ASCII digits.
-/

/-- Word character for the `\b` boundary of Python `re` (ASCII alphanumerics
and underscore; non-ASCII characters are treated as word characters, which
agrees with Python on letters). -/
def isWordChar (c : Char) : Bool :=
  c.isAlphanum || c == '_' || decide (128 ≤ c.toNat)

/-- `str.lower()` (ASCII). -/
def pyLower (l : List Char) : List Char := l.map Char.toLower

/-- `str.strip()`: drop leading and trailing whitespace. -/
def pyStrip (l : List Char) : List Char :=
  ((l.dropWhile Char.isWhitespace).reverse.dropWhile Char.isWhitespace).reverse

/-- Does `hay` start with `needle`? (Python `str.startswith`.) -/
def startsWithList : List Char → List Char → Bool
  | [], _ => true
  | _ :: _, [] => false
  | a :: as, b :: bs => a == b && startsWithList as bs

/-- Python `needle in hay` substring containment. -/
def containsSub (needle : List Char) : List Char → Bool
  | [] => startsWithList needle []
  | hay@(_ :: rest) => startsWithList needle hay || containsSub needle rest

/-- Python `a or b` over an optional string and a default (falsy = empty). -/
def pyOrStr (a : Option (List Char)) (b : List Char) : List Char :=
  match a with
  | some s => if s.isEmpty then b else s
  | none => b

/-- Is there a `\b` between the previous character (none = string start) and
a word character that follows? -/
def bdryBefore : Option Char → Bool
  | none => true
  | some p => !(isWordChar p)

/-- `\b` after the end of a word-character run: next char non-word or end. -/
def boundaryAfter : List Char → Bool
  | [] => true
  | c :: _ => !(isWordChar c)

/-! ## Query classifier (`rag.py`, `_is_law_query` and `_extract_article`) -/

/-- After `7:`, can `\d{1,3}` (some 1..budget digits) be followed by `\b`? -/
def digitsBdry : Nat → List Char → Bool
  | 0, _ => false
  | _ + 1, [] => false
  | Nat.succ m, c :: r => c.isDigit && (boundaryAfter r || digitsBdry m r)

/-- Does `7:\d{1,3}\b` match at the head of `l`? -/
def numAt : List Char → Bool
  | c :: d :: rest => c == '7' && d == ':' && digitsBdry 3 rest
  | _ => false

/-- `re.search(r"\b7:\d{1,3}\b", l) is not None`, scanning with the previous
character to decide the leading `\b`. -/
def searchNumFrom : Option Char → List Char → Bool
  | _, [] => false
  | prev, c :: rest =>
    (bdryBefore prev && numAt (c :: rest)) || searchNumFrom (some c) rest

/-- Keyword list of `_is_law_query`'s `mentions_bw` check. -/
def bwWords : List (List Char) :=
  [" bw".data, "burgerlijk".data, "civil code".data, "boek 7".data, "book 7".data]

/-- Keyword list of `_is_law_query`'s `mentions_art` check. -/
def artWords : List (List Char) :=
  ["art.".data, "artikel".data, "article".data, "чл.".data, "член".data]

/-- `mentions_bw` of `_is_law_query`. -/
def mentionsBw (ql : List Char) : Bool :=
  bwWords.any (fun w => containsSub w ql) || containsSub ("bw".data) ql

/-- `mentions_art` of `_is_law_query`. -/
def mentionsArt (ql : List Char) : Bool :=
  artWords.any (fun w => containsSub w ql)

/-- `_is_law_query` from `rag.py`. -/
def isLawQuery (q : List Char) : Bool :=
  let ql := pyLower q
  searchNumFrom none ql || (mentionsBw ql && mentionsArt ql)

/-- `[a-z]?` followed by `\b`, given the digits `ds` already matched:
greedy letter first, then the empty alternative. -/
def optLetterBdry (ds : List Char) : List Char → Option (List Char)
  | [] => some ds
  | c :: r =>
    if c.isLower then
      if boundaryAfter r then some (ds ++ [c]) else none
    else if isWordChar c then none
    else some ds

/-- `\d{1,3}[a-z]?\b` with greedy backtracking; `budget` bounds the digits
still allowed, `ds` are digits already consumed. -/
def artDigits : Nat → List Char → List Char → Option (List Char)
  | Nat.succ m, ds, c :: r =>
    if c.isDigit then
      match artDigits m (ds ++ [c]) r with
      | some res => some res
      | none => if ds.isEmpty then none else optLetterBdry ds (c :: r)
    else if ds.isEmpty then none else optLetterBdry ds (c :: r)
  | 0, ds, rest => if ds.isEmpty then none else optLetterBdry ds rest
  | _, ds, [] => if ds.isEmpty then none else optLetterBdry ds []

/-- Does `7:\d{1,3}[a-z]?\b` match at the head of `l`?  Returns the matched
group `7:…`. -/
def artAt : List Char → Option (List Char)
  | c :: d :: rest =>
    if c = '7' ∧ d = ':' then (artDigits 3 [] rest).map (fun t => c :: d :: t)
    else none
  | _ => none

/-- `re.search(r"\b(7:\d{1,3}[a-z]?)\b", l)`, returning the group. -/
def searchArtFrom : Option Char → List Char → Option (List Char)
  | _, [] => none
  | prev, c :: rest =>
    match (if bdryBefore prev then artAt (c :: rest) else none) with
    | some m => some m
    | none => searchArtFrom (some c) rest

/-- Drop a literal from the head of `l` (case-sensitive). -/
def dropLit : List Char → List Char → Option (List Char)
  | [], l => some l
  | _ :: _, [] => none
  | a :: as, b :: bs => if b = a then dropLit as bs else none

/-- Keyword alternation of `_extract_article`'s second regex, in source
order. -/
def artKwList : List (List Char) :=
  ["art.".data, "artikel".data, "article".data, "чл.".data, "член".data]

/-- Try each keyword alternative at this position, then `\s*` and the group
`(\d{1,3}[a-z]?)\b`; Python backtracks into the alternation, so all
alternatives are tried. -/
def tryKws : List (List Char) → List Char → Option (List Char)
  | [], _ => none
  | kw :: kws, l =>
    match dropLit kw l with
    | some rest =>
      match artDigits 3 [] (rest.dropWhile Char.isWhitespace) with
      | some ds => some ds
      | none => tryKws kws l
    | none => tryKws kws l

/-- `re.search(r"\b(?:art\.|artikel|article|чл\.|член)\s*(\d{1,3}[a-z]?)\b", l)`,
returning the digit group. -/
def searchKwFrom : Option Char → List Char → Option (List Char)
  | _, [] => none
  | prev, c :: rest =>
    match (if bdryBefore prev then tryKws artKwList (c :: rest) else none) with
    | some ds => some ds
    | none => searchKwFrom (some c) rest

/-- `_extract_article` from `rag.py`: first the `7:…` citation form, else an
`artikel <num>` mention mapped to book 7. -/
def extractArticle (q : List Char) : Option (List Char) :=
  let ql := pyLower q
  match searchArtFrom none ql with
  | some m => some m
  | none => (searchKwFrom none ql).map (fun ds => '7' :: ':' :: ds)

/-! ## Documents and hybrid retrieval (`rag.py`, `RAGPipeline.ask`) -/

/-- The metadata keys read or written by the embedded code (LangChain
metadata is a dict; unused keys are omitted). -/
structure Meta where
  source : Option (List Char) := none
  source_rel : Option (List Char) := none
  page : Option Int := none
  category : Option (List Char) := none
  article_num : Option (List Char) := none
  book : Option (List Char) := none
  article : Option (List Char) := none
deriving DecidableEq, Repr

/-- A LangChain `Document`. -/
structure Document where
  page_content : List Char
  metadata : Meta
deriving DecidableEq, Repr

/-- Deduplication key of the merge in `ask`:
`(m.get("source"), m.get("page"), d.page_content[:64])`. -/
def dKey (d : Document) : Option (List Char) × Option Int × List Char :=
  (d.metadata.source, d.metadata.page, d.page_content.take 64)

/-- The `_add` inner function of `ask`: walk a hit sequence, appending
unseen-key hits and stopping as soon as the merged list has reached `k`. -/
def addSeq (k : Nat) (seen : List (Option (List Char) × Option Int × List Char))
    (merged : List Document) :
    List Document → List (Option (List Char) × Option Int × List Char) × List Document
  | [] => (seen, merged)
  | d :: ds =>
    if dKey d ∈ seen then addSeq k seen merged ds
    else
      if k ≤ merged.length + 1 then (dKey d :: seen, merged ++ [d])
      else addSeq k (dKey d :: seen) (merged ++ [d]) ds

/-- The merge of `ask`: `_add(law_hits)` then, if still short of `k`,
`_add(gen_hits)`. -/
def mergeHits (k : Nat) (lawHits genHits : List Document) : List Document :=
  let r1 := addSeq k [] [] lawHits
  if r1.2.length < k then (addSeq k r1.1 r1.2 genHits).2 else r1.2

/-- A Chroma metadata filter as used by `ask` (exact-match on one field). -/
inductive HitFilter where
  | article : List Char → HitFilter
  | category : List Char → HitFilter
deriving DecidableEq, Repr

/-- The narrow-search filter of `ask`: `{"article": article_id}` when an
article id was extracted, else `{"category": "laws"}`. -/
def narrowWhere (q : List Char) : HitFilter :=
  match extractArticle q with
  | some a => HitFilter.article a
  | none => HitFilter.category ("laws".data)

/-- The retrieval portion of `RAGPipeline.ask`, with the vector store
abstracted as a pure search oracle `(question, k, filter) → hits`. -/
def retrieve (search : List Char → Nat → Option HitFilter → List Document)
    (q : List Char) (k : Nat) : List Document :=
  if isLawQuery q then
    mergeHits k (search q (max 2 (k / 2)) (some (narrowWhere q))) (search q k none)
  else search q k none

/-! ## Article segmentation (`ingestion.py`, `Ingestor._split_law_document`) -/

/-- Drop a literal from the head of `l`, case-insensitively (the literal is
given in lower case). -/
def dropLitCI : List Char → List Char → Option (List Char)
  | [], l => some l
  | _ :: _, [] => none
  | a :: as, b :: bs => if b.toLower = a then dropLitCI as bs else none

/-- Tail of one heading-pattern attempt, after `\s*` (length `w`), the
literal `Artikel` (length 7), `\s+` (length `w2`) and the digit run `ds`
have been consumed: `[a-z]?` under `re.IGNORECASE` (so any ASCII letter),
then `\b`, then `.*$`.  When the trailing `\b` fails, every shorter split
of `\d+[a-z]?` also fails (the following character is then a digit or a
letter, i.e. a word character), so a failure here is final for the whole
position.  Returns `(consumed length, article number group)`. -/
def matchTail (w w2 : Nat) (ds : List Char) : List Char → Option (Nat × List Char)
  | [] => some (w + 7 + w2 + ds.length, ds)
  | c :: r =>
    if c.isAlpha then
      if boundaryAfter r then
        some (w + 7 + w2 + ds.length + 1 +
              (r.takeWhile (fun x => !(x == '\n'))).length, ds ++ [c])
      else none
    else if isWordChar c then none
    else
      some (w + 7 + w2 + ds.length +
            ((c :: r).takeWhile (fun x => !(x == '\n'))).length, ds)

/-- `\d+` (greedy, at least one digit) and the rest of the pattern. -/
def matchDigits (w w2 : Nat) (l3 : List Char) : Option (Nat × List Char) :=
  let ds := l3.takeWhile Char.isDigit
  if ds.isEmpty then none else matchTail w w2 ds (l3.drop ds.length)

/-- `\s+` (greedy, at least one whitespace character) and the rest. -/
def matchNum (w : Nat) (l2 : List Char) : Option (Nat × List Char) :=
  let w2 := (l2.takeWhile Char.isWhitespace).length
  if w2 = 0 then none else matchDigits w w2 (l2.drop w2)

/-- The case-insensitive literal `Artikel` and the rest. -/
def matchAfterWs (w : Nat) (l1 : List Char) : Option (Nat × List Char) :=
  match dropLitCI ("artikel".data) l1 with
  | none => none
  | some l2 => matchNum w l2

/-- One attempt of `(?mi)^(\s*Artikel\s+(\d+[a-z]?))\b.*$` at a position
where the multiline `^` holds.  `\s*` is greedy and deterministic here
because whitespace and the letter `a`/`A` are disjoint, as are the later
`\s+`/`\d` and `\d+`/`[a-z]` frontiers. -/
def matchAt (l : List Char) : Option (Nat × List Char) :=
  let w := (l.takeWhile Char.isWhitespace).length
  matchAfterWs w (l.drop w)

/-- `pattern.finditer(text)` for the article-heading pattern: scan left to
right, attempting a match only where the multiline `^` holds (position 0 or
just after a newline), and resume after each match's end.  `fuel` bounds the
recursion; every step consumes at least one character, so
`fuel = text.length + 1` loses nothing.  Produces
`(m.start(), m.end(), num)` triples as built by the source. -/
def findArts : Nat → Nat → Bool → List Char → List (Nat × Nat × List Char)
  | 0, _, _, _ => []
  | _ + 1, _, _, [] => []
  | Nat.succ f, pos, atStart, c :: r =>
    if atStart then
      match matchAt (c :: r) with
      | some (len, num) =>
        (pos, pos + len, num) :: findArts f (pos + len) false ((c :: r).drop len)
      | none => findArts f (pos + 1) (c == '\n') r
    else findArts f (pos + 1) (c == '\n') r

/-- The `idxs` list of `_split_law_document`. -/
def artMatches (text : List Char) : List (Nat × Nat × List Char) :=
  findArts (text.length + 1) 0 true text

/-- `re.search(r"Boek(\d+)", src, re.IGNORECASE)`: leftmost `boek` (case
insensitive) followed by at least one digit; returns the digit group. -/
def findBoek : List Char → Option (List Char)
  | [] => none
  | l@(_ :: rest) =>
    match dropLitCI ("boek".data) l with
    | some l2 =>
      let d := l2.takeWhile Char.isDigit
      if d.isEmpty then findBoek rest else some d
    | none => findBoek rest

/-- The `src_rel` expression of `_split_law_document`:
`meta.get("source_rel") or meta.get("source") or ""`. -/
def srcRelOf (m : Meta) : List Char :=
  pyOrStr m.source_rel (pyOrStr m.source [])

/-- The metadata written for one article sub-document (`md` in the source):
a copy of the parent metadata with `article_num` always set and
`book`/`article` set according to the extracted book. -/
def articleMeta (meta : Meta) (book : Option (List Char)) (num : List Char) : Meta :=
  match book with
  | some b =>
    { meta with article_num := some num, article := some (b ++ ':' :: num), book := some b }
  | none => { meta with article_num := some num, article := some num }

/-- The output loop of `_split_law_document`: for each match, slice from its
start to the next match's start (end of text for the last), strip, and
attach the article metadata. -/
def buildArts (text : List Char) (meta : Meta) (book : Option (List Char)) :
    List (Nat × Nat × List Char) → List Document
  | [] => []
  | (s, _, num) :: rest =>
    let e2 := match rest with
      | (s2, _, _) :: _ => s2
      | [] => text.length
    ⟨pyStrip ((text.drop s).take (e2 - s)), articleMeta meta book num⟩ ::
      buildArts text meta book rest

/-- `Ingestor._split_law_document` from `ingestion.py`. -/
def splitLawDocument (d : Document) : List Document :=
  let text := d.page_content
  let book := findBoek (srcRelOf d.metadata)
  let idxs := artMatches text
  if idxs.isEmpty then [d]
  else buildArts text d.metadata book idxs

/-! ## Chunk statistics (`ingestion.py`, `Ingestor.chunk_stats`) -/

/-- The stats record returned by `chunk_stats`. -/
structure StatsOut where
  chunks : Nat
  avg : Nat
  p95 : Nat
  maxLen : Nat
deriving DecidableEq, Repr

/-- `Ingestor.chunk_stats`, modelled on the list of chunk sizes (the chunks
themselves come from the external text splitter).  Python computes the p95
index as `int(0.95 * (n - 1))` in floating point; for every list length
below `2 ^ 50` that value equals `⌊19 * (n - 1) / 20⌋`, which is used here. -/
def chunkStats (sizes : List Nat) : StatsOut :=
  if sizes.isEmpty then ⟨0, 0, 0, 0⟩
  else
    let ss := List.insertionSort (· ≤ ·) sizes
    { chunks := sizes.length
      avg := sizes.sum / sizes.length
      p95 := ss.getD ((19 * (sizes.length - 1)) / 20) 0
      maxLen := sizes.foldl max 0 }

/-! ## Splitter construction (`ingestion.py`, `Ingestor._build_splitter`) -/

/-- The splitter ultimately constructed by `_build_splitter`. -/
inductive Splitter where
  | tokens
  | sentences
  | markdown
  | recursive
deriving DecidableEq, Repr

/-- Which optional splitter dependencies import successfully at runtime. -/
structure SplitterAvail where
  tokens : Bool
  sentences : Bool
  markdown : Bool
deriving DecidableEq, Repr

/-- `Ingestor._build_splitter`: lower-case the configured name (defaulting a
falsy value to `recursive`), try the matching optional splitter, and fall
back to the recursive character splitter on import failure or an unknown
name.  Total by construction: no error is ever raised. -/
def buildSplitter (name : Option (List Char)) (av : SplitterAvail) : Splitter :=
  let strat := pyLower (pyOrStr name ("recursive".data))
  if strat = "tokens".data then
    (if av.tokens then Splitter.tokens else Splitter.recursive)
  else if strat = "sentences".data then
    (if av.sentences then Splitter.sentences else Splitter.recursive)
  else if strat = "markdown".data then
    (if av.markdown then Splitter.markdown else Splitter.recursive)
  else Splitter.recursive

/-! ## Helper lemmas -/

lemma isEmpty_eq_false_of_ne {l : List (Nat × Nat × List Char)} (h : l ≠ []) :
    l.isEmpty = false := by
  cases l with
  | nil => exact absurd rfl h
  | cons a t => rfl

/-! ## C6: zero article matches return the input document unchanged -/

/-- C6: for every law document whose text yields zero article-heading
matches, `_split_law_document` returns the single input document unchanged
(never an empty list; the function is total, so no error is possible). -/
theorem claim6_zero_matches (d : Document) (h : artMatches d.page_content = []) :
    splitLawDocument d = [d] := by
  simp [splitLawDocument, h]

/-- Witness for C6 at a concrete plain-prose document. -/
theorem claim6_witness :
    artMatches ("just some plain prose".data) = [] ∧
    splitLawDocument ⟨"just some plain prose".data, {}⟩ = [⟨"just some plain prose".data, {}⟩] :=
  ⟨by decide, claim6_zero_matches ⟨"just some plain prose".data, {}⟩ (by decide)⟩

/-! ## C5: the p95 statistic uses the nearest-rank index on sorted lengths -/

/-- C5: for every non-empty chunk-size list, `chunk_stats` reports `p95` as
the element at zero-based index `⌊19 * (n - 1) / 20⌋` (the exact value of
Python's `int(0.95 * (n - 1))` for these sizes) of the sorted sizes; the
index is always in range, the sorted list is a sorted permutation of the
input, and for sizes `[10, 20, 30, 40, 50]` the reported p95 is `40`. -/
theorem claim5_p95 (sizes : List Nat) (h : sizes ≠ []) :
    (19 * (sizes.length - 1)) / 20 < sizes.length
    ∧ (chunkStats sizes).p95 =
        (List.insertionSort (· ≤ ·) sizes).getD ((19 * (sizes.length - 1)) / 20) 0
    ∧ List.Sorted (· ≤ ·) (List.insertionSort (· ≤ ·) sizes)
    ∧ (List.insertionSort (· ≤ ·) sizes).Perm sizes
    ∧ (chunkStats [10, 20, 30, 40, 50]).p95 = 40 := by
  refine ⟨?_, ?_, List.sorted_insertionSort _ sizes, List.perm_insertionSort _ sizes, by decide⟩
  · have h1 : 1 ≤ sizes.length := by
      cases sizes with
      | nil => exact absurd rfl h
      | cons a t => exact Nat.succ_le_succ (Nat.zero_le _)
    rw [Nat.div_lt_iff_lt_mul (by norm_num : 0 < 20)]
    omega
  · cases sizes with
    | nil => exact absurd rfl h
    | cons a t => rfl

/-- Witness for C5 at the spec's concrete size list. -/
theorem claim5_witness :
    (19 * (([10, 20, 30, 40, 50] : List Nat).length - 1)) / 20 <
        ([10, 20, 30, 40, 50] : List Nat).length
    ∧ (chunkStats [10, 20, 30, 40, 50]).p95 =
        (List.insertionSort (· ≤ ·) [10, 20, 30, 40, 50]).getD
          ((19 * (([10, 20, 30, 40, 50] : List Nat).length - 1)) / 20) 0 :=
  ⟨(claim5_p95 [10, 20, 30, 40, 50] (by decide)).1,
   (claim5_p95 [10, 20, 30, 40, 50] (by decide)).2.1⟩

/-! ## C7: splitter construction always degrades to the recursive strategy -/

/-- C7: `_build_splitter` yields the recursive character splitter for the
default name `recursive` (and for a missing/falsy name), for every unknown
strategy name, and for each known optional strategy whose dependency fails
to import; it is a total function, so construction never raises. -/
theorem claim7_fallback (name : Option (List Char)) (av : SplitterAvail) :
    buildSplitter (some ("recursive".data)) av = Splitter.recursive
    ∧ buildSplitter none av = Splitter.recursive
    ∧ (pyLower (pyOrStr name ("recursive".data)) ∉
        (["tokens".data, "sentences".data, "markdown".data] : List (List Char)) →
        buildSplitter name av = Splitter.recursive)
    ∧ (pyLower (pyOrStr name ("recursive".data)) = "tokens".data → av.tokens = false →
        buildSplitter name av = Splitter.recursive)
    ∧ (pyLower (pyOrStr name ("recursive".data)) = "sentences".data → av.sentences = false →
        buildSplitter name av = Splitter.recursive)
    ∧ (pyLower (pyOrStr name ("recursive".data)) = "markdown".data → av.markdown = false →
        buildSplitter name av = Splitter.recursive) := by
  refine ⟨rfl, rfl, ?_, ?_, ?_, ?_⟩
  · intro h
    have h1 : pyLower (pyOrStr name ("recursive".data)) ≠ "tokens".data := by
      intro e; exact h (by rw [e]; exact List.mem_cons_self _ _)
    have h2 : pyLower (pyOrStr name ("recursive".data)) ≠ "sentences".data := by
      intro e; exact h (by rw [e]; simp)
    have h3 : pyLower (pyOrStr name ("recursive".data)) ≠ "markdown".data := by
      intro e; exact h (by rw [e]; simp)
    unfold buildSplitter
    rw [if_neg h1, if_neg h2, if_neg h3]
  · intro he hav
    unfold buildSplitter
    rw [if_pos he]
    simp [hav]
  · intro he hav
    unfold buildSplitter
    rw [if_neg (by rw [he]; decide), if_pos he]
    simp [hav]
  · intro he hav
    unfold buildSplitter
    rw [if_neg (by rw [he]; decide), if_neg (by rw [he]; decide), if_pos he]
    simp [hav]

/-- Witness for C7: the `Tokens` strategy with its dependency unavailable
falls back to the recursive splitter. -/
theorem claim7_witness :
    buildSplitter (some ("Tokens".data)) ⟨false, true, true⟩ = Splitter.recursive :=
  (claim7_fallback (some ("Tokens".data)) ⟨false, true, true⟩).2.2.2.1 (by decide) rfl

/-! ## C9: any `bw` substring plus an article keyword classifies as statute -/

/-- C9: for every question whose lowercased form contains the substring
`bw` anywhere and any of the article keywords, `_is_law_query` returns
`true`, regardless of whether an article number or civil-code phrase is
present. -/
theorem claim9_bw_substring (q : List Char)
    (h1 : containsSub ("bw".data) (pyLower q) = true)
    (h2 : mentionsArt (pyLower q) = true) :
    isLawQuery q = true := by
  have hb : mentionsBw (pyLower q) = true := by
    unfold mentionsBw
    rw [h1, Bool.or_true]
  simp [isLawQuery, hb, h2]

/-- Witness for C9: a question whose only `bw` occurrence is inside the
word `cobweb`, with no article number and no civil-code phrase. -/
theorem claim9_witness :
    searchNumFrom none (pyLower ("Is there a cobweb article here?".data)) = false
    ∧ isLawQuery ("Is there a cobweb article here?".data) = true :=
  ⟨by decide,
   claim9_bw_substring ("Is there a cobweb article here?".data) (by decide) (by decide)⟩

/-! ## C8: book extraction and article metadata -/

lemma buildArts_meta (text : List Char) (meta : Meta) (book : Option (List Char)) :
    ∀ idxs (x : Document), x ∈ buildArts text meta book idxs →
      ∃ num, x.metadata = articleMeta meta book num := by
  intro idxs
  induction idxs with
  | nil => intro x hx; simp [buildArts] at hx
  | cons hd tl ih =>
    obtain ⟨s, e, num⟩ := hd
    intro x hx
    simp only [buildArts, List.mem_cons] at hx
    cases hx with
    | inl hx => exact ⟨num, by rw [hx]⟩
    | inr hx => exact ih x hx

/-- C8: for every law document that segments into at least one article, the
book number is the leftmost case-insensitive `Boek<N>` token of the
document's relative source path (falling back through the raw source path,
exactly as the code's `or`-chain does); when present, every sub-document
carries `book = N` and `article = "N:num"`, and when absent the `book`
field is left untouched and `article` equals the bare article number. -/
theorem claim8_book_metadata (d : Document) (x : Document)
    (h : artMatches d.page_content ≠ [])
    (hx : x ∈ splitLawDocument d) :
    (∀ b, findBoek (srcRelOf d.metadata) = some b →
        x.metadata.book = some b ∧
        ∃ num, x.metadata.article_num = some num ∧
               x.metadata.article = some (b ++ ':' :: num))
    ∧ (findBoek (srcRelOf d.metadata) = none →
        x.metadata.book = d.metadata.book ∧
        x.metadata.article = x.metadata.article_num ∧
        x.metadata.article_num ≠ none) := by
  have hx' : x ∈ buildArts d.page_content d.metadata (findBoek (srcRelOf d.metadata))
      (artMatches d.page_content) := by
    have := isEmpty_eq_false_of_ne h
    simpa [splitLawDocument, this] using hx
  obtain ⟨num, hm⟩ := buildArts_meta _ _ _ _ x hx'
  constructor
  · intro b hb
    rw [hb] at hm
    rw [hm]
    exact ⟨rfl, num, rfl, rfl⟩
  · intro hb
    rw [hb] at hm
    rw [hm]
    exact ⟨rfl, rfl, by simp [articleMeta]⟩

/-- Witness for C8 at a document under a `Boek7` path. -/
theorem claim8_witness :
    (⟨pyStrip ("Artikel 1\nA".data),
      articleMeta { source_rel := some ("laws/Boek7/bw.txt".data) } (some ("7".data))
        ("1".data)⟩ : Document).metadata.book = some ("7".data)
    ∧ ∃ num,
        (⟨pyStrip ("Artikel 1\nA".data),
          articleMeta { source_rel := some ("laws/Boek7/bw.txt".data) } (some ("7".data))
            ("1".data)⟩ : Document).metadata.article_num = some num ∧
        (⟨pyStrip ("Artikel 1\nA".data),
          articleMeta { source_rel := some ("laws/Boek7/bw.txt".data) } (some ("7".data))
            ("1".data)⟩ : Document).metadata.article = some (("7".data) ++ ':' :: num) :=
  (claim8_book_metadata
      ⟨"Artikel 1\nA".data, { source_rel := some ("laws/Boek7/bw.txt".data) }⟩
      ⟨pyStrip ("Artikel 1\nA".data),
        articleMeta { source_rel := some ("laws/Boek7/bw.txt".data) } (some ("7".data))
          ("1".data)⟩
      (by decide) (by decide)).1 ("7".data) (by decide)

/-! ## C3: article bodies include their heading line (claim corrected) -/

/-- C3 counterexample: on the spec's own example text the two sub-documents
are the stripped slices starting at each heading match's start, so the
first sub-document's text is `Artikel 244\nBody1`, not the bare body
`Body1` that the claim requires. -/
theorem claim3_counterexample :
    (splitLawDocument ⟨("Artikel 244\nBody1\nArtikel 244a\nBody2".data), {}⟩).map
        Document.page_content
      = [("Artikel 244\nBody1".data), ("Artikel 244a\nBody2".data)]
    ∧ ("Artikel 244\nBody1".data) ≠ ("Body1".data) := by
  constructor
  · decide
  · decide

/-- The sub-document texts that the amended claim describes: each body is
the whitespace-stripped slice of the original text from its heading
match's start position to the next heading's start (end of text for the
last match), so each sub-document contains its heading line followed by
its body. -/
def amendedBodies (text : List Char) : List (Nat × Nat × List Char) → List (List Char)
  | [] => []
  | (s, _, _) :: rest =>
    (pyStrip ((text.drop s).take
      ((match rest with
        | (s2, _, _) :: _ => s2
        | [] => text.length) - s))) :: amendedBodies text rest

lemma buildArts_map_content (text : List Char) (meta : Meta) (book : Option (List Char)) :
    ∀ idxs, (buildArts text meta book idxs).map Document.page_content =
      amendedBodies text idxs := by
  intro idxs
  induction idxs with
  | nil => rfl
  | cons hd tl ih =>
    obtain ⟨s, e, num⟩ := hd
    cases tl with
    | nil => simp [buildArts, amendedBodies]
    | cons hd2 tl2 =>
      obtain ⟨s2, e2, num2⟩ := hd2
      simpa [buildArts, amendedBodies] using ih

/-- C3 amended: for every law document, the produced sub-document texts are
exactly the stripped slices from each heading match's start to the next
heading's start (end of text for the last match) — each sub-document
contains its heading line plus its own body, not the body alone; on the
example text this yields two sub-documents with `article_num` `244` and
`244a`. -/
theorem claim3_amended (d : Document) :
    (splitLawDocument d).map Document.page_content =
      (if artMatches d.page_content = [] then [d.page_content]
       else amendedBodies d.page_content (artMatches d.page_content))
    ∧ (splitLawDocument ⟨("Artikel 244\nBody1\nArtikel 244a\nBody2".data), {}⟩).map
        Document.page_content
        = [("Artikel 244\nBody1".data), ("Artikel 244a\nBody2".data)]
    ∧ (splitLawDocument ⟨("Artikel 244\nBody1\nArtikel 244a\nBody2".data), {}⟩).map
        (fun x => x.metadata.article_num)
        = [some ("244".data), some ("244a".data)] := by
  refine ⟨?_, by decide, by decide⟩
  by_cases h : artMatches d.page_content = []
  · rw [if_pos h]
    simp [splitLawDocument, h]
  · rw [if_neg h]
    have := isEmpty_eq_false_of_ne h
    simp [splitLawDocument, this, buildArts_map_content]

/-! ## C1: hybrid merge — order, dedup, length bound -/

lemma addSeq_length (k : Nat) :
    ∀ (seq : List Document) seen merged, merged.length < k →
      ((addSeq k seen merged seq).2).length ≤ k := by
  intro seq
  induction seq with
  | nil => intro seen merged hm; exact Nat.le_of_lt hm
  | cons d ds ih =>
    intro seen merged hm
    unfold addSeq
    by_cases hmem : dKey d ∈ seen
    · rw [if_pos hmem]; exact ih seen merged hm
    · rw [if_neg hmem]
      by_cases hk : k ≤ merged.length + 1
      · rw [if_pos hk]
        simpa using Nat.succ_le_of_lt hm
      · rw [if_neg hk]
        exact ih _ _ (by simpa using Nat.lt_of_not_le hk)

lemma addSeq_append (k : Nat) :
    ∀ (seq : List Document) seen merged,
      ∃ t, (addSeq k seen merged seq).2 = merged ++ t ∧ t.Sublist seq := by
  intro seq
  induction seq with
  | nil => intro seen merged; exact ⟨[], by simp [addSeq]⟩
  | cons d ds ih =>
    intro seen merged
    unfold addSeq
    by_cases hmem : dKey d ∈ seen
    · rw [if_pos hmem]
      obtain ⟨t, ht, hs⟩ := ih seen merged
      exact ⟨t, ht, hs.cons d⟩
    · rw [if_neg hmem]
      by_cases hk : k ≤ merged.length + 1
      · rw [if_pos hk]
        exact ⟨[d], rfl, (List.nil_sublist ds).cons₂ d⟩
      · rw [if_neg hk]
        obtain ⟨t, ht, hs⟩ := ih (dKey d :: seen) (merged ++ [d])
        exact ⟨d :: t, by rw [ht, List.append_assoc]; rfl, hs.cons₂ d⟩

lemma addSeq_inv (k : Nat) :
    ∀ (seq : List Document) seen merged,
      (merged.map dKey).Nodup →
      (∀ key ∈ merged.map dKey, key ∈ seen) →
      (((addSeq k seen merged seq).2).map dKey).Nodup ∧
      (∀ key ∈ ((addSeq k seen merged seq).2).map dKey, key ∈ (addSeq k seen merged seq).1) := by
  intro seq
  induction seq with
  | nil => intro seen merged hn hsub; exact ⟨hn, hsub⟩
  | cons d ds ih =>
    intro seen merged hn hsub
    unfold addSeq
    by_cases hmem : dKey d ∈ seen
    · rw [if_pos hmem]; exact ih seen merged hn hsub
    · rw [if_neg hmem]
      have hnotin : dKey d ∉ merged.map dKey := fun hin => hmem (hsub _ hin)
      have hn' : ((merged ++ [d]).map dKey).Nodup := by
        rw [List.map_append, List.nodup_append]
        exact ⟨hn, List.nodup_singleton _, by
          intro a ha hb
          simp only [List.map_cons, List.map_nil, List.mem_singleton] at hb
          rw [hb] at ha
          exact hnotin ha⟩
      have hsub' : ∀ key ∈ (merged ++ [d]).map dKey, key ∈ dKey d :: seen := by
        intro key hkey
        rw [List.map_append] at hkey
        rcases List.mem_append.mp hkey with hk1 | hk2
        · exact List.mem_cons_of_mem _ (hsub _ hk1)
        · simp only [List.map_cons, List.map_nil, List.mem_singleton] at hk2
          rw [hk2]
          exact List.mem_cons_self _ _
      by_cases hk : k ≤ merged.length + 1
      · rw [if_pos hk]
        exact ⟨hn', hsub'⟩
      · rw [if_neg hk]
        exact ih _ _ hn' hsub'

/-- Example hits for the spec's merge scenario (distinct sources; `hitB`
appears in both the narrow and the broad results). -/
def hitA : Document := ⟨"Alpha text".data, { source := some ("a.txt".data), page := some 0 }⟩

def hitB : Document := ⟨"Beta text".data, { source := some ("b.txt".data), page := some 0 }⟩

def hitC : Document := ⟨"Gamma text".data, { source := some ("c.txt".data), page := some 1 }⟩

def hitD : Document := ⟨"Delta text".data, { source := some ("d.txt".data), page := some 2 }⟩

/-- C1: for every statute-classified question the retrieval result is the
merge of the narrow and broad hit lists; the merge takes a subsequence of
the narrow hits (in rank order) followed by a subsequence of the broad hits
(in rank order), contains no two hits with the same
`(source, page, first-64-chars)` key, and never exceeds length `k`; on the
spec's example (narrow `[A, B]`, broad `[B, C, D]`, `k = 3`) it returns
exactly `[A, B, C]`. -/
theorem claim1_merge (k : Nat) (law gen : List Document) (hk : 1 ≤ k)
    (search : List Char → Nat → Option HitFilter → List Document) (q : List Char)
    (hq : isLawQuery q = true) :
    (mergeHits k law gen).length ≤ k
    ∧ (∃ t1 t2, mergeHits k law gen = t1 ++ t2 ∧ t1.Sublist law ∧ t2.Sublist gen)
    ∧ ((mergeHits k law gen).map dKey).Nodup
    ∧ retrieve search q k =
        mergeHits k (search q (max 2 (k / 2)) (some (narrowWhere q))) (search q k none)
    ∧ mergeHits 3 [hitA, hitB] [hitB, hitC, hitD] = [hitA, hitB, hitC] := by
  refine ⟨?_, ?_, ?_, ?_, by decide⟩
  · unfold mergeHits
    by_cases h1 : (addSeq k [] [] law).2.length < k
    · rw [if_pos h1]
      exact addSeq_length k gen _ _ h1
    · rw [if_neg h1]
      exact addSeq_length k law [] [] hk
  · unfold mergeHits
    obtain ⟨t1, ht1, hs1⟩ := addSeq_append k law [] []
    by_cases h1 : (addSeq k [] [] law).2.length < k
    · rw [if_pos h1]
      obtain ⟨t2, ht2, hs2⟩ := addSeq_append k gen (addSeq k [] [] law).1 (addSeq k [] [] law).2
      refine ⟨t1, t2, ?_, hs1, hs2⟩
      rw [ht2, ht1]
      simp
    · rw [if_neg h1]
      refine ⟨t1, [], ?_, hs1, List.nil_sublist gen⟩
      rw [ht1]
      simp
  · unfold mergeHits
    have hfirst := addSeq_inv k law [] [] (by simp) (by simp)
    by_cases h1 : (addSeq k [] [] law).2.length < k
    · rw [if_pos h1]
      exact (addSeq_inv k gen _ _ hfirst.1 hfirst.2).1
    · rw [if_neg h1]
      exact hfirst.1
  · simp [retrieve, hq]

/-- Witness for C1 at the spec's concrete merge example. -/
theorem claim1_witness :
    (mergeHits 3 [hitA, hitB] [hitB, hitC, hitD]).length ≤ 3
    ∧ mergeHits 3 [hitA, hitB] [hitB, hitC, hitD] = [hitA, hitB, hitC] := by
  have h := claim1_merge 3 [hitA, hitB] [hitB, hitC, hitD] (by decide)
    (fun _ _ _ => []) ("artikel 7:244 bw".data) (by decide)
  exact ⟨h.1, h.2.2.2.2⟩

/-! ## C4: narrow and broad search parameters for statute queries -/

/-- C4: for every statute-classified question and configured `k`, the
retrieval result is computed from a narrow search issued with
`k_narrow = max 2 (k / 2)` and the filter `{article = article_id}` when an
article id was extracted (else `{category = "laws"}`), and a broad search
issued with the full `k` and no filter. -/
theorem claim4_narrow_params
    (search : List Char → Nat → Option HitFilter → List Document)
    (q : List Char) (k : Nat) (hq : isLawQuery q = true) :
    retrieve search q k =
      mergeHits k (search q (max 2 (k / 2)) (some (narrowWhere q))) (search q k none)
    ∧ (∀ a, extractArticle q = some a → narrowWhere q = HitFilter.article a)
    ∧ (extractArticle q = none → narrowWhere q = HitFilter.category ("laws".data)) := by
  refine ⟨by simp [retrieve, hq], ?_, ?_⟩
  · intro a ha
    simp [narrowWhere, ha]
  · intro ha
    simp [narrowWhere, ha]

/-- Witness for C4 at a concrete statute question and `k = 4`. -/
theorem claim4_witness :
    retrieve (fun _ _ _ => ([] : List Document))
        ("What does 7:244 BW say about subletting?".data) 4 =
      mergeHits 4
        ((fun (_ : List Char) (_ : Nat) (_ : Option HitFilter) => ([] : List Document))
          ("What does 7:244 BW say about subletting?".data) (max 2 (4 / 2))
          (some (narrowWhere ("What does 7:244 BW say about subletting?".data))))
        ((fun (_ : List Char) (_ : Nat) (_ : Option HitFilter) => ([] : List Document))
          ("What does 7:244 BW say about subletting?".data) 4 none)
    ∧ narrowWhere ("What does 7:244 BW say about subletting?".data) =
        HitFilter.article ("7:244".data) :=
  ⟨(claim4_narrow_params (fun _ _ _ => []) _ 4 (by decide)).1,
   (claim4_narrow_params (fun _ _ _ => []) _ 4 (by decide)).2.1 ("7:244".data) (by decide)⟩

/-! ## C2: classifier and article extraction (claim corrected to book 7) -/

lemma isWordChar_of_digit {c : Char} (h : c.isDigit = true) : isWordChar c = true := by
  simp [isWordChar, Char.isAlphanum, h]

lemma isWordChar_of_lower {c : Char} (h : c.isLower = true) : isWordChar c = true := by
  simp [isWordChar, Char.isAlphanum, Char.isAlpha, h]

lemma optLetterBdry_some {ds t : List Char} :
    ∀ {l}, optLetterBdry ds l = some t → t = ds ∨ ∃ c, t = ds ++ [c] := by
  intro l h
  cases l with
  | nil =>
    simp only [optLetterBdry, Option.some.injEq] at h
    exact Or.inl h.symm
  | cons c r =>
    simp only [optLetterBdry] at h
    by_cases h1 : c.isLower = true
    · rw [if_pos h1] at h
      by_cases h2 : boundaryAfter r = true
      · rw [if_pos h2] at h
        exact Or.inr ⟨c, ((Option.some.injEq _ _).mp h).symm⟩
      · rw [if_neg h2] at h
        exact absurd h (by simp)
    · rw [if_neg h1] at h
      by_cases h2 : isWordChar c = true
      · rw [if_pos h2] at h
        exact absurd h (by simp)
      · rw [if_neg h2] at h
        exact Or.inl ((Option.some.injEq _ _).mp h).symm

lemma ne_nil_of_not_isEmpty {ds : List Char} (h : ¬ds.isEmpty = true) : ds ≠ [] := by
  intro hnil
  exact h (by rw [hnil]; rfl)

lemma some_of_optLetterBdry {ds t : List Char} {l : List Char}
    (hds : ¬ds.isEmpty = true) (h : optLetterBdry ds l = some t) : t ≠ [] := by
  rcases optLetterBdry_some h with rfl | ⟨c, rfl⟩
  · exact ne_nil_of_not_isEmpty hds
  · simp

lemma artDigits_ne_nil : ∀ (m : Nat) (ds r t : List Char),
    artDigits m ds r = some t → t ≠ [] := by
  intro m
  induction m with
  | zero =>
    intro ds r t h
    simp only [artDigits] at h
    by_cases he : ds.isEmpty = true
    · rw [if_pos he] at h
      exact absurd h (by simp)
    · rw [if_neg he] at h
      exact some_of_optLetterBdry he h
  | succ m ih =>
    intro ds r t h
    cases r with
    | nil =>
      simp only [artDigits] at h
      by_cases he : ds.isEmpty = true
      · rw [if_pos he] at h
        exact absurd h (by simp)
      · rw [if_neg he] at h
        exact some_of_optLetterBdry he h
    | cons c r' =>
      simp only [artDigits] at h
      by_cases hd : c.isDigit = true
      · rw [if_pos hd] at h
        cases hm : artDigits m (ds ++ [c]) r' with
        | some res =>
          simp only [hm] at h
          have hres : res = t := by injection h
          exact hres ▸ ih (ds ++ [c]) r' res hm
        | none =>
          simp only [hm] at h
          by_cases he : ds.isEmpty = true
          · rw [if_pos he] at h
            exact absurd h (by simp)
          · rw [if_neg he] at h
            exact some_of_optLetterBdry he h
      · rw [if_neg hd] at h
        by_cases he : ds.isEmpty = true
        · rw [if_pos he] at h
          exact absurd h (by simp)
        · rw [if_neg he] at h
          exact some_of_optLetterBdry he h

lemma optLetterBdry_of_nonword {ds : List Char} {c : Char} {r : List Char}
    (hb : isWordChar c = false) : optLetterBdry ds (c :: r) = some ds := by
  have hl : c.isLower = false := by
    cases hll : c.isLower with
    | false => rfl
    | true => rw [isWordChar_of_lower hll] at hb; exact absurd hb (by simp)
  simp [optLetterBdry, hl, hb]

lemma bdry_artDigits_isSome : ∀ (m : Nat) (ds r : List Char), ds ≠ [] →
    boundaryAfter r = true → ∃ t, artDigits m ds r = some t := by
  intro m ds r hds hb
  have hne : ds.isEmpty = false := by
    cases ds with
    | nil => exact absurd rfl hds
    | cons a t => rfl
  cases r with
  | nil =>
    cases m with
    | zero => exact ⟨ds, by simp [artDigits, hne, optLetterBdry]⟩
    | succ m => exact ⟨ds, by simp [artDigits, hne, optLetterBdry]⟩
  | cons c r' =>
    have hw : isWordChar c = false := by
      simpa [boundaryAfter] using hb
    have hd : c.isDigit = false := by
      cases hdd : c.isDigit with
      | false => rfl
      | true => rw [isWordChar_of_digit hdd] at hw; exact absurd hw (by simp)
    cases m with
    | zero => exact ⟨ds, by simp [artDigits, hne, optLetterBdry_of_nonword hw]⟩
    | succ m => exact ⟨ds, by simp [artDigits, hd, hne, optLetterBdry_of_nonword hw]⟩

lemma digitsBdry_artDigits : ∀ (m : Nat) (r ds : List Char),
    digitsBdry m r = true → ∃ t, artDigits m ds r = some t := by
  intro m
  induction m with
  | zero => intro r ds h; exact absurd h (by simp [digitsBdry])
  | succ m ih =>
    intro r ds h
    cases r with
    | nil => exact absurd h (by simp [digitsBdry])
    | cons c r' =>
      simp only [digitsBdry, Bool.and_eq_true, Bool.or_eq_true] at h
      obtain ⟨hd, hrest⟩ := h
      simp only [artDigits, hd, if_true]
      cases hmatch : artDigits m (ds ++ [c]) r' with
      | some res => exact ⟨res, by simp⟩
      | none =>
        exfalso
        rcases hrest with hbd | hdb
        · obtain ⟨t, ht⟩ := bdry_artDigits_isSome m (ds ++ [c]) r' (by simp) hbd
          rw [hmatch] at ht
          exact absurd ht (by simp)
        · obtain ⟨t, ht⟩ := ih r' (ds ++ [c]) hdb
          rw [hmatch] at ht
          exact absurd ht (by simp)

lemma artAt_shape {l m : List Char} (h : artAt l = some m) :
    ∃ t, m = '7' :: ':' :: t ∧ t ≠ [] := by
  cases l with
  | nil => exact absurd h (by simp [artAt])
  | cons c l' =>
    cases l' with
    | nil => exact absurd h (by simp [artAt])
    | cons d rest =>
      simp only [artAt] at h
      split at h
      · rename_i hcd
        obtain ⟨rfl, rfl⟩ := hcd
        obtain ⟨u, hu, rfl⟩ := Option.map_eq_some'.mp h
        exact ⟨u, rfl, artDigits_ne_nil 3 [] rest u hu⟩
      · exact absurd h (by simp)

lemma numAt_artAt {l : List Char} (h : numAt l = true) :
    ∃ t, artAt l = some ('7' :: ':' :: t) ∧ t ≠ [] := by
  cases l with
  | nil => exact absurd h (by simp [numAt])
  | cons c l' =>
    cases l' with
    | nil => exact absurd h (by simp [numAt])
    | cons d rest =>
      simp only [numAt, Bool.and_eq_true, beq_iff_eq] at h
      obtain ⟨⟨rfl, rfl⟩, hdb⟩ := h
      obtain ⟨t, ht⟩ := digitsBdry_artDigits 3 rest [] hdb
      refine ⟨t, ?_, artDigits_ne_nil 3 [] rest t ht⟩
      simp [artAt, ht]

lemma searchNum_searchArt : ∀ (l : List Char) (prev : Option Char),
    searchNumFrom prev l = true →
    ∃ t, searchArtFrom prev l = some ('7' :: ':' :: t) ∧ t ≠ [] := by
  intro l
  induction l with
  | nil => intro prev h; exact absurd h (by simp [searchNumFrom])
  | cons c rest ih =>
    intro prev h
    simp only [searchNumFrom, Bool.or_eq_true, Bool.and_eq_true] at h
    by_cases hb : bdryBefore prev = true
    · cases hart : artAt (c :: rest) with
      | some m =>
        obtain ⟨t, rfl, ht⟩ := artAt_shape hart
        exact ⟨t, by simp [searchArtFrom, hb, hart], ht⟩
      | none =>
        have hrec : searchNumFrom (some c) rest = true := by
          rcases h with ⟨_, hnum⟩ | hrec
          · obtain ⟨t, ht, _⟩ := numAt_artAt hnum
            rw [hart] at ht
            exact absurd ht (by simp)
          · exact hrec
        obtain ⟨t, ht, htn⟩ := ih (some c) hrec
        exact ⟨t, by simp [searchArtFrom, hb, hart, ht], htn⟩
    · have hb' : bdryBefore prev = false := by simpa using hb
      have hrec : searchNumFrom (some c) rest = true := by
        rcases h with ⟨hbb, _⟩ | hrec
        · rw [hb'] at hbb; exact absurd hbb (by simp)
        · exact hrec
      obtain ⟨t, ht, htn⟩ := ih (some c) hrec
      exact ⟨t, by simp [searchArtFrom, hb', ht], htn⟩

/-- C2 counterexample: the question `What does 3:15 BW say about
subletting?` contains the digit(s):digit(s) pattern `3:15`, yet the
classifier returns `false` and the extractor returns `none` — the code's
regexes only accept citations of book `7`. -/
theorem claim2_counterexample :
    containsSub ("3:15".data) (pyLower ("What does 3:15 BW say about subletting?".data)) = true
    ∧ isLawQuery ("What does 3:15 BW say about subletting?".data) = false
    ∧ extractArticle ("What does 3:15 BW say about subletting?".data) = none := by
  refine ⟨by decide, by decide, by decide⟩

/-- C2 amended: for every question whose lowercased form matches
`\b7:\d{1,3}\b` (book 7 only — not an arbitrary book number), the
classifier returns `true` and the extractor returns a non-trivial article
id of the form `7:…` (the leftmost regex match); the keyword-free question
`What is the capital of France?` yields `false` and `none`. -/
theorem claim2_amended (q : List Char) :
    (searchNumFrom none (pyLower q) = true →
      isLawQuery q = true ∧
      ∃ t, extractArticle q = some ('7' :: ':' :: t) ∧ t ≠ [])
    ∧ isLawQuery ("What is the capital of France?".data) = false
    ∧ extractArticle ("What is the capital of France?".data) = none := by
  refine ⟨?_, by decide, by decide⟩
  intro h
  constructor
  · simp [isLawQuery, h]
  · obtain ⟨t, ht, htn⟩ := searchNum_searchArt (pyLower q) none h
    exact ⟨t, by simp [extractArticle, ht], htn⟩

/-- Witness for C2 at the spec's concrete statute question. -/
theorem claim2_witness :
    searchNumFrom none (pyLower ("What does 7:244 BW say about subletting?".data)) = true
    ∧ isLawQuery ("What does 7:244 BW say about subletting?".data) = true
    ∧ extractArticle ("What does 7:244 BW say about subletting?".data) =
        some ("7:244".data) :=
  ⟨by decide,
   ((claim2_amended ("What does 7:244 BW say about subletting?".data)).1 (by decide)).1,
   by decide⟩

/-! ## C10: article sub-documents are never empty -/

lemma dropLitCI_length : ∀ (lit l r : List Char),
    dropLitCI lit l = some r → l.length = lit.length + r.length := by
  intro lit
  induction lit with
  | nil =>
    intro l r h
    simp only [dropLitCI, Option.some.injEq] at h
    rw [h]
    simp
  | cons a as ih =>
    intro l r h
    cases l with
    | nil => exact absurd h (by simp [dropLitCI])
    | cons b bs =>
      simp only [dropLitCI] at h
      by_cases hb : b.toLower = a
      · rw [if_pos hb] at h
        have := ih bs r h
        simp only [List.length_cons]
        omega
      · rw [if_neg hb] at h
        exact absurd h (by simp)

lemma dropLitCI_head {a : Char} {as l r : List Char} (h : dropLitCI (a :: as) l = some r) :
    ∃ c cs, l = c :: cs ∧ c.toLower = a := by
  cases l with
  | nil => exact absurd h (by simp [dropLitCI])
  | cons b bs =>
    simp only [dropLitCI] at h
    by_cases hb : b.toLower = a
    · exact ⟨b, bs, rfl, hb⟩
    · rw [if_neg hb] at h
      exact absurd h (by simp)

lemma toLower_a_not_ws {c : Char} (h : c.toLower = 'a') : c.isWhitespace = false := by
  cases hw : c.isWhitespace with
  | false => rfl
  | true =>
    exfalso
    have h4 : ((c = ' ' ∨ c = '\t') ∨ c = '\r') ∨ c = '\n' := by
      simpa [Char.isWhitespace, Bool.or_eq_true, decide_eq_true_eq] using hw
    rcases h4 with ((rfl | rfl) | rfl) | rfl <;> exact absurd h (by decide)

lemma matchTail_bounds {w w2 : Nat} {ds : List Char} :
    ∀ {l4 : List Char} {len : Nat} {num : List Char},
      matchTail w w2 ds l4 = some (len, num) →
      w + 7 + w2 + ds.length ≤ len ∧ len ≤ w + 7 + w2 + ds.length + l4.length := by
  intro l4 len num h
  cases l4 with
  | nil =>
    simp only [matchTail, Option.some.injEq, Prod.mk.injEq] at h
    omega
  | cons c r =>
    simp only [matchTail] at h
    by_cases ha : c.isAlpha = true
    · rw [if_pos ha] at h
      by_cases hbd : boundaryAfter r = true
      · rw [if_pos hbd] at h
        have hinj : w + 7 + w2 + ds.length + 1 +
            (r.takeWhile (fun x => !(x == '\n'))).length = len := by
          injection h with h1; injection h1
        have htk : (r.takeWhile (fun x => !(x == '\n'))).length ≤ r.length :=
          (List.takeWhile_sublist _).length_le
        simp only [List.length_cons]
        omega
      · rw [if_neg hbd] at h
        exact absurd h (by simp)
    · rw [if_neg ha] at h
      by_cases hwc : isWordChar c = true
      · rw [if_pos hwc] at h
        exact absurd h (by simp)
      · rw [if_neg hwc] at h
        have hinj : w + 7 + w2 + ds.length +
            ((c :: r).takeWhile (fun x => !(x == '\n'))).length = len := by
          injection h with h1; injection h1
        have htk : ((c :: r).takeWhile (fun x => !(x == '\n'))).length ≤ (c :: r).length :=
          (List.takeWhile_sublist _).length_le
        simp only [List.length_cons] at htk ⊢
        omega

lemma matchDigits_bounds {w w2 : Nat} {l3 : List Char} {len : Nat} {num : List Char}
    (h : matchDigits w w2 l3 = some (len, num)) :
    w + 7 + w2 + 1 ≤ len ∧ len ≤ w + 7 + w2 + l3.length := by
  simp only [matchDigits] at h
  by_cases he : (l3.takeWhile Char.isDigit).isEmpty = true
  · rw [if_pos he] at h
    exact absurd h (by simp)
  · rw [if_neg he] at h
    have hds1 : 1 ≤ (l3.takeWhile Char.isDigit).length := by
      cases hcase : l3.takeWhile Char.isDigit with
      | nil => rw [hcase] at he; exact absurd rfl he
      | cons a t => simp
    have hdsle : (l3.takeWhile Char.isDigit).length ≤ l3.length :=
      (List.takeWhile_sublist _).length_le
    have hdrop : (l3.drop (l3.takeWhile Char.isDigit).length).length =
        l3.length - (l3.takeWhile Char.isDigit).length := List.length_drop _ _
    obtain ⟨hlo, hhi⟩ := matchTail_bounds h
    rw [hdrop] at hhi
    omega

lemma matchNum_bounds {w : Nat} {l2 : List Char} {len : Nat} {num : List Char}
    (h : matchNum w l2 = some (len, num)) :
    w + 8 ≤ len ∧ len ≤ w + 7 + l2.length := by
  simp only [matchNum] at h
  by_cases hz : (l2.takeWhile Char.isWhitespace).length = 0
  · rw [if_pos hz] at h
    exact absurd h (by simp)
  · rw [if_neg hz] at h
    have hwle : (l2.takeWhile Char.isWhitespace).length ≤ l2.length :=
      (List.takeWhile_sublist _).length_le
    have hdrop : (l2.drop (l2.takeWhile Char.isWhitespace).length).length =
        l2.length - (l2.takeWhile Char.isWhitespace).length := List.length_drop _ _
    obtain ⟨hlo, hhi⟩ := matchDigits_bounds h
    rw [hdrop] at hhi
    omega

lemma matchAfterWs_spec {w : Nat} {l1 : List Char} {len : Nat} {num : List Char}
    (h : matchAfterWs w l1 = some (len, num)) :
    (w + 8 ≤ len ∧ len ≤ w + l1.length) ∧
    ∃ c cs, l1 = c :: cs ∧ c.isWhitespace = false := by
  simp only [matchAfterWs] at h
  cases hdl : dropLitCI ("artikel".data) l1 with
  | none => rw [hdl] at h; exact absurd h (by simp)
  | some l2 =>
    rw [hdl] at h
    have hlen := dropLitCI_length _ _ _ hdl
    obtain ⟨hlo, hhi⟩ := matchNum_bounds h
    obtain ⟨c, cs, rfl, hc⟩ := dropLitCI_head hdl
    refine ⟨⟨hlo, ?_⟩, c, cs, rfl, toLower_a_not_ws hc⟩
    have h7 : ("artikel".data).length = 7 := by decide
    simp only [List.length_cons] at hlen ⊢
    omega

lemma matchAt_spec {l : List Char} {len : Nat} {num : List Char}
    (h : matchAt l = some (len, num)) :
    len ≤ l.length ∧
    ∃ w c cs, l.drop w = c :: cs ∧ c.isWhitespace = false ∧ w + 1 ≤ len := by
  simp only [matchAt] at h
  have hwle : (l.takeWhile Char.isWhitespace).length ≤ l.length :=
    (List.takeWhile_sublist _).length_le
  have hdrop : (l.drop (l.takeWhile Char.isWhitespace).length).length =
      l.length - (l.takeWhile Char.isWhitespace).length := List.length_drop _ _
  obtain ⟨⟨hlo, hhi⟩, c, cs, hl1, hcws⟩ := matchAfterWs_spec h
  rw [hdrop] at hhi
  exact ⟨by omega, (l.takeWhile Char.isWhitespace).length, c, cs, hl1, hcws, by omega⟩

/-- Soundness predicate for the match list produced by `findArts`: every
triple `(s, e, num)` records an actual heading match of length `e - s` at
position `s`, positions advance (`pos ≤ s < e`), every end stays within the
text, and consecutive matches do not overlap. -/
def chainFrom (text : List Char) : Nat → List (Nat × Nat × List Char) → Prop
  | _, [] => True
  | pos, (s, e, num) :: rest =>
    pos ≤ s ∧ matchAt (text.drop s) = some (e - s, num) ∧ s < e ∧ e ≤ text.length ∧
    chainFrom text e rest

lemma chainFrom_mono (text : List Char) :
    ∀ (res : List (Nat × Nat × List Char)) (p q : Nat),
      p ≤ q → chainFrom text q res → chainFrom text p res := by
  intro res p q hpq h
  cases res with
  | nil => trivial
  | cons hd tl =>
    obtain ⟨s, e, num⟩ := hd
    simp only [chainFrom] at h ⊢
    exact ⟨hpq.trans h.1, h.2⟩

lemma findArts_chain (text : List Char) :
    ∀ (fuel pos : Nat) (b : Bool),
      chainFrom text pos (findArts fuel pos b (text.drop pos)) := by
  intro fuel
  induction fuel with
  | zero => intro pos b; simp [findArts, chainFrom]
  | succ f ih =>
    intro pos b
    cases hdrop : text.drop pos with
    | nil => simp [findArts, chainFrom]
    | cons c r =>
      have hr : text.drop (pos + 1) = r := by
        rw [← List.drop_drop, hdrop]
        rfl
      simp only [findArts]
      by_cases hb : b = true
      · rw [hb, if_pos rfl]
        cases hm : matchAt (c :: r) with
        | none =>
          simp only [hm]
          have := ih (pos + 1) (c == '\n')
          rw [hr] at this
          exact chainFrom_mono text _ pos (pos + 1) (by omega) this
        | some p =>
          obtain ⟨len, num⟩ := p
          simp only [hm]
          obtain ⟨hlen, w, c', cs, hdw, hnws, hw1⟩ := matchAt_spec hm
          have hpos : pos < text.length := by
            by_contra hge
            have hle : text.length ≤ pos := by omega
            rw [List.drop_eq_nil_of_le hle] at hdrop
            exact absurd hdrop (by simp)
          have hlenr : (c :: r).length = text.length - pos := by
            rw [← hdrop, List.length_drop]
          simp only [chainFrom]
          refine ⟨Nat.le_refl pos, ?_, by omega, by omega, ?_⟩
          · rw [hdrop]
            have : pos + len - pos = len := by omega
            rw [this]
            exact hm
          · have hdd : (c :: r).drop len = text.drop (pos + len) := by
              rw [← hdrop, List.drop_drop, Nat.add_comm]
            rw [hdd]
            exact ih (pos + len) false
      · have hb' : b = false := by simpa using hb
        rw [hb', if_neg (by simp)]
        have := ih (pos + 1) (c == '\n')
        rw [hr] at this
        exact chainFrom_mono text _ pos (pos + 1) (by omega) this

lemma artMatches_chain (text : List Char) : chainFrom text 0 (artMatches text) := by
  have := findArts_chain text (text.length + 1) 0 true
  rw [List.drop_zero] at this
  exact this

lemma mem_dropWhile_of_neg {p : Char → Bool} {c : Char} :
    ∀ {l : List Char}, c ∈ l → p c = false → c ∈ l.dropWhile p := by
  intro l
  induction l with
  | nil => intro hc _; exact absurd hc (by simp)
  | cons a t ih =>
    intro hc hp
    by_cases hpa : p a = true
    · rw [List.dropWhile_cons, if_pos hpa]
      rcases List.mem_cons.mp hc with rfl | hct
      · rw [hp] at hpa; exact absurd hpa (by simp)
      · exact ih hct hp
    · rw [List.dropWhile_cons, if_neg hpa]
      exact hc

lemma pyStrip_ne_nil {l : List Char} {c : Char} (hc : c ∈ l)
    (hw : c.isWhitespace = false) : pyStrip l ≠ [] := by
  intro hnil
  unfold pyStrip at hnil
  rw [List.reverse_eq_nil_iff] at hnil
  have hall := List.dropWhile_eq_nil_iff.mp hnil
  have hc1 : c ∈ (l.dropWhile Char.isWhitespace).reverse :=
    List.mem_reverse.mpr (mem_dropWhile_of_neg hc hw)
  have := hall c hc1
  rw [hw] at this
  exact absurd this (by simp)

lemma mem_take_of_drop : ∀ (L : List Char) (w n : Nat) (c : Char) (cs : List Char),
    L.drop w = c :: cs → w < n → c ∈ L.take n := by
  intro L
  induction L with
  | nil =>
    intro w n c cs h _
    rw [List.drop_nil] at h
    exact absurd h (by simp)
  | cons a t ih =>
    intro w n c cs h hn
    cases w with
    | zero =>
      rw [List.drop_zero] at h
      cases n with
      | zero => omega
      | succ m =>
        rw [List.take_succ_cons]
        have : a = c := by injection h
        rw [this]
        exact List.mem_cons_self _ _
    | succ w' =>
      cases n with
      | zero => omega
      | succ m =>
        rw [List.take_succ_cons]
        refine List.mem_cons_of_mem a (ih w' m c cs ?_ (by omega))
        simpa using h

lemma buildArts_ne_nil (text : List Char) (meta : Meta) (book : Option (List Char)) :
    ∀ (idxs : List (Nat × Nat × List Char)) (pos : Nat), chainFrom text pos idxs →
      ∀ x ∈ buildArts text meta book idxs, x.page_content ≠ [] := by
  intro idxs
  induction idxs with
  | nil => intro pos _ x hx; simp [buildArts] at hx
  | cons hd tl ih =>
    obtain ⟨s, e, num⟩ := hd
    intro pos hc x hx
    simp only [chainFrom] at hc
    obtain ⟨hps, hm, hse, hel, hrest⟩ := hc
    simp only [buildArts, List.mem_cons] at hx
    rcases hx with rfl | hx
    · obtain ⟨hlen, w, c, cs, hdw, hnws, hw1⟩ := matchAt_spec hm
      cases tl with
      | nil =>
        exact pyStrip_ne_nil
          (mem_take_of_drop (text.drop s) w (text.length - s) c cs hdw (by omega)) hnws
      | cons hd2 tl2 =>
        obtain ⟨s2, e2, n2⟩ := hd2
        simp only [chainFrom] at hrest
        have he2 : e ≤ s2 := hrest.1
        exact pyStrip_ne_nil
          (mem_take_of_drop (text.drop s) w (s2 - s) c cs hdw (by omega)) hnws
    · exact ih e hrest x hx

/-- C10: for every law document with at least one article-heading match,
every sub-document produced by `_split_law_document` has non-empty text —
each slice starts at its heading match's start and extends at least over
the heading, which contains the non-whitespace letters of `Artikel`, so
stripping cannot empty it. -/
theorem claim10_nonempty (d : Document) (h : artMatches d.page_content ≠ [])
    (x : Document) (hx : x ∈ splitLawDocument d) :
    x.page_content ≠ [] := by
  have hx' : x ∈ buildArts d.page_content d.metadata (findBoek (srcRelOf d.metadata))
      (artMatches d.page_content) := by
    have := isEmpty_eq_false_of_ne h
    simpa [splitLawDocument, this] using hx
  exact buildArts_ne_nil _ _ _ _ 0 (artMatches_chain d.page_content) x hx'

/-- Witness for C10 at a concrete one-article document. -/
theorem claim10_witness :
    artMatches ("Artikel 1\nA".data) ≠ [] ∧
    (⟨pyStrip ("Artikel 1\nA".data), articleMeta {} none ("1".data)⟩ : Document).page_content ≠ [] :=
  ⟨by decide,
   claim10_nonempty ⟨"Artikel 1\nA".data, {}⟩ (by decide)
     ⟨pyStrip ("Artikel 1\nA".data), articleMeta {} none ("1".data)⟩ (by decide)⟩
